import Mathlib

/-!
Verification development for the KCL configuration-language runtime surface.

The C sources under the plugin bridge (`kclvm_plugin.cpp`) are embedded
directly.  The runtime value/merge/resolver operations are declared in
`crates/runtime/src/_kcl.h` but their bodies live in the Rust runtime crate,
which is not part of the given sources; those operations are modelled from
the specification text, as indicated by each definition's doc comment.
-/

/-- Tagged value model of the KCL runtime (spec §3): Undefined, None, Bool,
Int, Str, List, Dict.  Float and the type-position-only kinds are omitted:
no verified property below mentions them. -/
inductive KclValue where
  | vundef
  | vnone
  | vbool (b : Bool)
  | vint (i : Int)
  | vstr (s : String)
  | vlist (elems : List KclValue)
  | vdict (entries : List (String × KclValue))

/-- Runtime error taxonomy (spec §7), restricted to the errors the claims
mention. -/
inductive KclRtError where
  | indexError
  | valueError
  | cyclicAttributeReference
  | evaluationError
  | attributeNotFound
  | outOfFuel
deriving DecidableEq

/-- Modelled from the spec: `kcl_list_set` (declared in `_kcl.h`, body in the
missing Rust runtime).  Spec §4.3: an indexed update targets one element of a
List; all other elements are left untouched. -/
def kcl_list_set (l : List KclValue) (i : Nat) (v : KclValue) : List KclValue :=
  l.set i v

/-- Modelled from the spec: `kcl_list_get` (declared in `_kcl.h`, body in the
missing Rust runtime).  Spec §4.2: positional access with negative-index
normalization; out-of-range indices are a runtime error for direct
positional get. -/
def kcl_list_get (l : List KclValue) (i : Int) : Except KclRtError KclValue :=
  let n : Int := l.length
  let j : Int := if i < 0 then i + n else i
  if 0 ≤ j ∧ j < n then
    match l[j.toNat]? with
    | some v => Except.ok v
    | Option.none => Except.error KclRtError.indexError
  else Except.error KclRtError.indexError

/-- Python-style clamp of a (possibly negative) slice bound into [0, n]
(positive step). -/
def pyClamp (n : Nat) (i : Int) : Nat :=
  let j : Int := if i < 0 then i + n else i
  if j ≤ 0 then 0 else if (n : Int) ≤ j then n else j.toNat

/-- Python-style clamp of a (possibly negative) slice bound into [-1, n-1]
(negative step). -/
def pyClampNeg (n : Nat) (i : Int) : Int :=
  let j : Int := if i < 0 then i + n else i
  if j ≤ -1 then -1 else if (n : Int) ≤ j then (n : Int) - 1 else j

/-- Every `s`-th element of a list, starting with the first. -/
def stepSel {α : Type} (s : Nat) : List α → List α
  | [] => []
  | x :: xs => x :: stepSel s (List.drop (s - 1) xs)
termination_by l => l.length
decreasing_by
  simp only [List.length_cons, List.length_drop]
  omega

/-- Modelled from the spec: `kcl_value_slice` (declared in `_kcl.h`, body in
the missing Rust runtime).  Spec §4.2: Python-style `start:stop:step`
half-open slicing; out-of-range indices clamp silently in slicing. -/
def kcl_value_slice (l : List KclValue) (a b step : Option Int) :
    Except KclRtError (List KclValue) :=
  let n := l.length
  let st := step.getD 1
  if st = 0 then Except.error KclRtError.valueError
  else if 0 < st then
    let lo := pyClamp n (a.getD 0)
    let hi := pyClamp n (b.getD (n : Int))
    Except.ok (stepSel st.toNat ((l.drop lo).take (hi - lo)))
  else
    let lo1 := pyClampNeg n (a.getD ((n : Int) - 1))
    let hi1 := pyClampNeg n (b.getD (-1))
    Except.ok (stepSel (-st).toNat
      (((l.drop (hi1 + 1).toNat).take (lo1 - hi1).toNat).reverse))

/-- Ordered-dict lookup over insertion-ordered entry lists (spec §4.2),
first matching key wins. -/
def dlookup : List (String × KclValue) → String → Option KclValue
  | [], _ => Option.none
  | (k0, v0) :: rest, k => if k0 = k then some v0 else dlookup rest k

/-- Ordered-dict in-place key update preserving insertion order; a missing
key is appended (spec §4.2/§3: insertion order significant). -/
def dictSet : List (String × KclValue) → String → KclValue → List (String × KclValue)
  | [], k, v => [(k, v)]
  | (k0, v0) :: rest, k, v =>
    if k0 = k then (k0, v) :: rest else (k0, v0) :: dictSet rest k v

mutual

/-- Modelled from the spec: `kcl_value_union` (declared in `_kcl.h`, body in
the missing Rust runtime).  Spec §4.3 Union/Merge: Dict∪Dict merges key-wise
recursing into nested Dicts, List∪List concatenates, scalar∪scalar is
Override (the override side wins); mismatched kinds also fall back to
Override here, the MergeTypeError channel being unneeded by any claim. -/
def kcl_value_union : KclValue → KclValue → KclValue
  | KclValue.vdict ea, KclValue.vdict eb => KclValue.vdict (union_entries ea eb)
  | KclValue.vlist xa, KclValue.vlist xb => KclValue.vlist (xa ++ xb)
  | _, b => b
termination_by a b => (sizeOf b, 0, 0)

/-- Key-wise union of an override entry list into a base entry list. -/
def union_entries : List (String × KclValue) → List (String × KclValue) →
    List (String × KclValue)
  | ea, [] => ea
  | ea, (k, vb) :: rest => union_entries (union_insert ea k vb) rest
termination_by ea eb => (sizeOf eb, 2, sizeOf ea)

/-- Union of one override entry into a base entry list: an existing key is
recursively unioned in place, a new key is appended. -/
def union_insert : List (String × KclValue) → String → KclValue →
    List (String × KclValue)
  | [], k, vb => [(k, vb)]
  | (k0, v0) :: ea, k, vb =>
    if k0 = k then (k0, kcl_value_union v0 vb) :: ea
    else (k0, v0) :: union_insert ea k vb
termination_by ea k vb => (sizeOf vb, 1, sizeOf ea)

end

/-- Merge operation codes (spec §4.3); the concrete integer op codes are not
determined by the visible signatures, so the minimal Override/Union set
named by the spec is used. -/
inductive KclMergeOp where
  | override
  | union_
deriving DecidableEq

/-- Modelled from the spec: `kcl_dict_insert` (declared in `_kcl.h`, body in
the missing Rust runtime).  Spec §4.3: Override replaces the prior value at
the key entirely; Union recursively combines with the prior value.  The
index-locator arguments are omitted: no claim below exercises them on
dicts. -/
def kcl_dict_insert (d : List (String × KclValue)) (key : String) (v : KclValue)
    (op : KclMergeOp) : List (String × KclValue) :=
  match op with
  | KclMergeOp.override => dictSet d key v
  | KclMergeOp.union_ =>
    match dlookup d key with
    | some v0 => dictSet d key (kcl_value_union v0 v)
    | Option.none => d ++ [(key, v)]

/-- Modelled from the spec: `kcl_dict_merge` (declared in `_kcl.h`, body in
the missing Rust runtime).  Spec §4.3: combine a base container with one
override entry under Union semantics; a non-dict base is left as-is (the
MergeTypeError channel is unneeded by any claim). -/
def kcl_dict_merge (base : KclValue) (key : String) (v : KclValue) : KclValue :=
  match base with
  | KclValue.vdict es => KclValue.vdict (kcl_dict_insert es key v KclMergeOp.union_)
  | b => b

/-- Modelled from the spec: folding one override layer onto a base value,
key by key in layer order (spec §4.3/§4.5 step 1).  The default contract is
copy-then-merge: the base container is not mutated, so the result is the
pair (base container after the operation, newly produced merged value). -/
def kcl_dict_merge_layer (base : KclValue) (layer : List (String × KclValue)) :
    KclValue × KclValue :=
  (base, layer.foldl (fun acc kv => kcl_dict_merge acc kv.1 kv.2) base)

/-- Per-attribute cache state of the backtrack cache (spec §4.4):
UNRESOLVED is absence from the cache; IN_PROGRESS marks a resolution under
way (cycle detection); RESOLVED carries the memoized value; ERROR marks a
failed evaluation. -/
inductive KclCacheState where
  | inProgress
  | resolved (v : KclValue)
  | errored

/-- Defining expression of a schema attribute, as far as the resolver claims
need it: a literal value, or a reference to another attribute of the same
instance (`self.attr`). -/
inductive AttrExpr where
  | lit (v : KclValue)
  | selfRef (attr : String)

/-- Map from (attribute name, override level) to the attribute's defining
expression. -/
abbrev SchemaDef := List ((String × Nat) × AttrExpr)

/-- Association-list lookup keyed by (attribute name, override level). -/
def alookup {α : Type} : List ((String × Nat) × α) → String → Nat → Option α
  | [], _, _ => Option.none
  | (k0, a) :: rest, x, lv => if k0 = (x, lv) then some a else alookup rest x lv

/-- Association-list update keyed by (attribute name, override level); the
new binding shadows any older one. -/
def aset {α : Type} (m : List ((String × Nat) × α)) (x : String) (lv : Nat)
    (a : α) : List ((String × Nat) × α) :=
  ((x, lv), a) :: m

/-- Number of recorded expression evaluations for an (attribute, level)
pair. -/
def acount (m : List ((String × Nat) × Nat)) (x : String) (lv : Nat) : Nat :=
  (alookup m x lv).getD 0

/-- Record one more expression evaluation for an (attribute, level) pair. -/
def bumpEval (m : List ((String × Nat) × Nat)) (x : String) (lv : Nat) :
    List ((String × Nat) × Nat) :=
  aset m x lv (acount m x lv + 1)

/-- Per-evaluation-session resolver state (spec §3 Backtrack Cache): the
(attribute, level) → state cache, instrumented with a per-pair count of how
many times the defining expression was evaluated. -/
structure KclSession where
  cache : List ((String × Nat) × KclCacheState)
  evals : List ((String × Nat) × Nat)

/-- Fresh evaluation session: empty backtrack cache, no evaluations. -/
def KclSession.empty : KclSession := ⟨[], []⟩

/-- Modelled from the spec: the attribute resolver behind
`kcl_schema_get_value` / `kcl_schema_backtrack_cache` (declared in `_kcl.h`,
bodies in the missing Rust runtime).  Spec §4.4 state machine per
(attribute, level) pair: a RESOLVED cache entry is returned without
recomputation; an IN_PROGRESS entry signals CyclicAttributeReferenceError
without recursing further; otherwise the pair is marked IN_PROGRESS, its
defining expression is evaluated (nested `self.attr` lookups route back into
the resolver), and on success RESOLVED(value) — on failure ERROR — is
cached.  Fuel makes the recursion structural; the cycle check itself stops
self-reference before fuel runs out. -/
def resolveAttr : Nat → SchemaDef → KclSession → String → Nat →
    Except KclRtError KclValue × KclSession
  | 0, _, s, _, _ => (Except.error KclRtError.outOfFuel, s)
  | Nat.succ fuel, sch, s, x, lv =>
    match alookup s.cache x lv with
    | some (KclCacheState.resolved v) => (Except.ok v, s)
    | some KclCacheState.inProgress =>
      (Except.error KclRtError.cyclicAttributeReference, s)
    | some KclCacheState.errored => (Except.error KclRtError.evaluationError, s)
    | Option.none =>
      match alookup sch x lv with
      | Option.none => (Except.error KclRtError.attributeNotFound, s)
      | some (AttrExpr.lit v) =>
        (Except.ok v,
         ⟨aset (aset s.cache x lv KclCacheState.inProgress) x lv
            (KclCacheState.resolved v),
          bumpEval s.evals x lv⟩)
      | some (AttrExpr.selfRef y) =>
        match resolveAttr fuel sch
            ⟨aset s.cache x lv KclCacheState.inProgress, bumpEval s.evals x lv⟩
            y lv with
        | (Except.ok v, s2) =>
          (Except.ok v, ⟨aset s2.cache x lv (KclCacheState.resolved v), s2.evals⟩)
        | (Except.error e, s2) =>
          (Except.error e, ⟨aset s2.cache x lv KclCacheState.errored, s2.evals⟩)

/-- Default (callee-sized) ABI result buffer size, from
`kclvm_plugin.cpp`. -/
def kDefaultBufferSize : Nat := 1024*1024*10

/-- Modelled from the spec: the generated `kcl_run` entry invoked through
`_start_fn_ptr` (its body is generated code, not among the sources).  Spec
§6 length-prefixed convention: the evaluation output of the program is a
pure function of the program; a non-negative return value is the number of
bytes written into the result buffer, a negative return value signals
buffer-too-small.  The pair is (return value, bytes written). -/
def kcl_run (output : String) (result_buffer_len : Nat) : Int × String :=
  if output.length ≤ result_buffer_len then ((output.length : Int), output)
  else (-1, "")

/-- Result post-processing of `_run_app` (`kclvm_plugin.cpp` lines 107-113):
a positive return length keeps the written bytes, zero yields the literal
two-character text "\x7b\x7d", a negative value yields the buffer-size-limit
error document. -/
def processResult (result_len : Int) (buf : String) : String :=
  if 0 < result_len then buf
  else if result_len = 0 then "\x7b\x7d"
  else "\x7b\"error\": \"buffer size limit\"\x7d"

/-- Embedding of `_kclvm_plugin_AppContextBase::_run_app`
(`kclvm_plugin.cpp` lines 44-118): size the result buffer from
`buffer_size` (falling back to the default when non-positive), call the run
function with capacity `buffer_.size()-1`, then post-process the returned
length.  Options, flags and the warning buffer do not influence the result
channel and are omitted. -/
def _run_app (output : String) (buffer_size : Int) : String :=
  let cap := (if 0 < buffer_size then buffer_size.toNat else kDefaultBufferSize) - 1
  let r := kcl_run output cap
  processResult r.1 r.2

/-- Process-global registration state of the plugin bridge
(`kclvm_plugin.cpp` lines 10-11): the slot holding the single registered
`_kclvm_plugin_AppContextBase` (identified by a numeric handle) and the
stored rust invoke function pointer. -/
structure PluginGlobals where
  g_self : Option Nat
  g_rust_invoke_json_ptr : Nat
deriving DecidableEq

/-- Embedding of the `_kclvm_plugin_AppContextBase` constructor
(`kclvm_plugin.cpp` lines 25-29): stores the rust pointer, asserts the
global slot is empty, then registers this instance.  A violated assertion is
modelled as no resulting state. -/
def appContextCtor (g : PluginGlobals) (self ptr : Nat) : Option PluginGlobals :=
  if g.g_self = Option.none then
    some { g_self := some self, g_rust_invoke_json_ptr := ptr }
  else Option.none

/-- Embedding of the `_kclvm_plugin_AppContextBase` destructor
(`kclvm_plugin.cpp` lines 30-33): clears the rust pointer and the global
slot. -/
def appContextDtor (_g : PluginGlobals) : PluginGlobals :=
  { g_self := Option.none, g_rust_invoke_json_ptr := 0 }

/-- Embedding of `_invoke_json_proxy` (`kclvm_plugin.cpp` lines 13-23):
with no registered instance the proxy returns the empty string without
dispatching; otherwise it dispatches to the registered instance's
`_call_py_method`, abstracted as `callPy`. -/
def _invoke_json_proxy (g : PluginGlobals)
    (callPy : Nat → String → String → String → String)
    (method args kwargs : String) : String :=
  match g.g_self with
  | Option.none => ""
  | some inst => callPy inst method args kwargs

/-- Scalar payloads stored in one arena cell (spec §9: opaque
reference-counted handles are represented as an arena of values addressed by
stable indices). -/
inductive ScalarV where
  | sundef
  | snone
  | sbool (b : Bool)
  | sint (i : Int)
  | sstr (s : String)
deriving DecidableEq

/-- Tagged value read back from a scalar arena cell. -/
def ScalarV.toValue : ScalarV → KclValue
  | ScalarV.sundef => KclValue.vundef
  | ScalarV.snone => KclValue.vnone
  | ScalarV.sbool b => KclValue.vbool b
  | ScalarV.sint i => KclValue.vint i
  | ScalarV.sstr s => KclValue.vstr s

/-- One arena cell: a scalar, or a composite (dict when `isDict`, list
otherwise) whose children are addresses of other cells; list children carry
an ignored empty key. -/
inductive KNode where
  | scalar (v : ScalarV)
  | comp (isDict : Bool) (children : List (String × Nat))
deriving DecidableEq

/-- Arena of value cells addressed by stable indices. -/
abbrev KStore := List KNode

/-- Does every child address of the node lie below `n`? -/
def nodeBelowB (n : Nat) : KNode → Bool
  | KNode.scalar _ => true
  | KNode.comp _ cs => cs.all (fun c => decide (c.2 < n))

/-- Does every child address of the node lie at or above `m`? -/
def nodeFromB (m : Nat) : KNode → Bool
  | KNode.scalar _ => true
  | KNode.comp _ cs => cs.all (fun c => decide (m ≤ c.2))

/-- Every cell of the store references only addresses below `n`. -/
def closedToB (n : Nat) (st : KStore) : Bool :=
  st.all (nodeBelowB n)

/-- Every cell at address `m` or above references only addresses at or
above `m`: the region from `m` on is self-contained. -/
def sepFromB (m : Nat) (st : KStore) : Bool :=
  (st.drop m).all (nodeFromB m)

mutual

/-- Read the tagged value rooted at an arena address, with fuel bounding the
unfolding depth. -/
def readVal : KStore → Nat → Nat → Option KclValue
  | _, 0, _ => Option.none
  | st, Nat.succ fuel, a =>
    match st[a]? with
    | Option.none => Option.none
    | some (KNode.scalar v) => some v.toValue
    | some (KNode.comp isDict cs) =>
      match readChildren st fuel cs with
      | Option.none => Option.none
      | some entries =>
        some (if isDict then KclValue.vdict entries
              else KclValue.vlist (entries.map Prod.snd))
termination_by st fuel a => (fuel, 0)

/-- Read back each child address in order. -/
def readChildren : KStore → Nat → List (String × Nat) →
    Option (List (String × KclValue))
  | _, _, [] => some []
  | st, fuel, (k, c) :: rest =>
    match readVal st fuel c with
    | Option.none => Option.none
    | some v =>
      match readChildren st fuel rest with
      | Option.none => Option.none
      | some vs => some ((k, v) :: vs)
termination_by st fuel cs => (fuel, cs.length + 1)

end

mutual

/-- Modelled from the spec: `kcl_value_deep_copy` (declared in `_kcl.h`,
body in the missing Rust runtime) over the arena.  Spec §4.1/§3: produce a
deep copy that is independently mutable — every reachable cell is cloned
into a fresh cell appended at the end of the arena, so no cell is shared
between copy and original.  Returns the grown store and the copy's root
address; fuel bounds the recursion depth. -/
def kcl_value_deep_copy : KStore → Nat → Nat → Option (KStore × Nat)
  | _, 0, _ => Option.none
  | st, Nat.succ fuel, a =>
    match st[a]? with
    | Option.none => Option.none
    | some (KNode.scalar v) => some (st ++ [KNode.scalar v], st.length)
    | some (KNode.comp isDict cs) =>
      match copyChildren st fuel cs with
      | Option.none => Option.none
      | some (st1, cs1) => some (st1 ++ [KNode.comp isDict cs1], st1.length)
termination_by st fuel a => (fuel, 0)

/-- Deep-copy each child address in order, threading the growing store. -/
def copyChildren : KStore → Nat → List (String × Nat) →
    Option (KStore × List (String × Nat))
  | st, _, [] => some (st, [])
  | st, fuel, (k, c) :: rest =>
    match kcl_value_deep_copy st fuel c with
    | Option.none => Option.none
    | some (st1, c1) =>
      match copyChildren st1 fuel rest with
      | Option.none => Option.none
      | some (st2, rest1) => some (st2, (k, c1) :: rest1)
termination_by st fuel cs => (fuel, cs.length + 1)

end

/-- In-place mutation of one arena cell. -/
def kstore_set (st : KStore) (a : Nat) (nd : KNode) : KStore :=
  st.set a nd

/-- Concrete value used by witnesses. -/
def demoV : KclValue := KclValue.vint 9

/-- Concrete two-element list used by witnesses. -/
def demoList : List KclValue := [KclValue.vint 1, KclValue.vint 2]

/-- Concrete dispatch target used by witnesses, standing for a registered
instance's `_call_py_method`. -/
def demoCallPy : Nat → String → String → String → String :=
  fun _inst method args kwargs => method ++ args ++ kwargs

/-- Concrete one-attribute schema used by witnesses: `a` at level 0 is the
literal 7. -/
def demoSchema : SchemaDef := [(("a", 0), AttrExpr.lit (KclValue.vint 7))]

/-- Session state after resolving `a` at level 0 of `demoSchema` once. -/
def demoSession : KclSession :=
  ⟨[(("a", 0), KclCacheState.resolved (KclValue.vint 7)),
    (("a", 0), KclCacheState.inProgress)],
   [(("a", 0), 1)]⟩

/-- Concrete cyclic schema used by witnesses: `x` at level 0 is defined as
`self.x`. -/
def cyclicSchema : SchemaDef := [(("x", 0), AttrExpr.selfRef "x")]

/-- Concrete arena used by witnesses: cell 0 holds the scalar 1, cell 1 a
one-element list referencing cell 0. -/
def demoStore : KStore := [KNode.scalar (ScalarV.sint 1), KNode.comp false [("", 0)]]

/-- Arena after deep-copying cell 1 of `demoStore`: the copy occupies the
two fresh cells 2 and 3 and references only them. -/
def copyStore : KStore :=
  [KNode.scalar (ScalarV.sint 1), KNode.comp false [("", 0)],
   KNode.scalar (ScalarV.sint 1), KNode.comp false [("", 2)]]

/-- Lookup after an in-place ordered-dict update at the same key yields the
new value. -/
theorem dlookup_dictSet_self (d : List (String × KclValue)) (k : String)
    (v : KclValue) : dlookup (dictSet d k v) k = some v := by
  induction d with
  | nil => simp [dictSet, dlookup]
  | cons hd tl ih =>
    obtain ⟨k0, v0⟩ := hd
    by_cases h : k0 = k
    · simp [dictSet, dlookup, h]
    · simp [dictSet, dlookup, h, ih]

/-- Selecting every 1st element selects everything. -/
theorem stepSel_one {α : Type} : ∀ l : List α, stepSel 1 l = l
  | [] => by rw [stepSel]
  | x :: xs => by
    rw [stepSel]
    simp [stepSel_one xs]

/-- C4: merging an empty override layer onto any base value returns a value
structurally equal to the base (the empty override is a right identity both
of the per-layer merge and of the recursive union), and the merge leaves the
base container itself unmodified — copy-then-merge is the default, so the
base component of the result is the untouched input. -/
theorem c4_empty_override_right_identity (v : KclValue)
    (layer : List (String × KclValue)) (es : List (String × KclValue)) :
    (kcl_dict_merge_layer v []).2 = v ∧
    kcl_value_union (KclValue.vdict es) (KclValue.vdict []) = KclValue.vdict es ∧
    (kcl_dict_merge_layer v layer).1 = v :=
  ⟨rfl, by rw [kcl_value_union, union_entries], rfl⟩

/-- C5: folding any sequence of Override-semantics updates of key `key` in
caller-supplied order leaves at `key` exactly the value of the last update,
independent of how many intermediate updates were folded. -/
theorem c5_override_last_write_wins (d : List (String × KclValue)) (key : String)
    (vs : List KclValue) (w : KclValue) :
    dlookup
      (List.foldl (fun acc v => kcl_dict_insert acc key v KclMergeOp.override)
        d (vs ++ [w])) key = some w := by
  rw [List.foldl_append]
  simp only [List.foldl_cons, List.foldl_nil, kcl_dict_insert]
  exact dlookup_dictSet_self _ _ _

/-- C6: an indexed update `list[i] = v` with `i` in range changes only
position `i`: the length is unchanged, position `i` holds `v`, and every
other position `j ≠ i` holds exactly its pre-update value. -/
theorem c6_list_set_frame (l : List KclValue) (i j : Nat) (v : KclValue)
    (hi : i < l.length) (hj : j ≠ i) :
    (kcl_list_set l i v).length = l.length ∧
    (kcl_list_set l i v)[i]? = some v ∧
    (kcl_list_set l i v)[j]? = l[j]? := by
  refine ⟨by simp [kcl_list_set], ?_, ?_⟩
  · simp [kcl_list_set, List.getElem?_set_self', List.getElem?_eq_getElem hi]
  · simp [kcl_list_set, List.getElem?_set_ne (fun h => hj h.symm)]

/-- Witness for C6 at a concrete list, index and off-index position. -/
theorem c6_witness :
    0 < demoList.length ∧ (1 : Nat) ≠ 0 ∧
    ((kcl_list_set demoList 0 demoV).length = demoList.length ∧
     (kcl_list_set demoList 0 demoV)[0]? = some demoV ∧
     (kcl_list_set demoList 0 demoV)[1]? = demoList[1]?) :=
  ⟨by decide, by decide, c6_list_set_frame demoList 0 1 demoV (by decide) (by decide)⟩

/-- C9: when the run function returns exactly 0, `_run_app` substitutes the
literal two-character JSON text for the empty result (not the empty
string), and for a negative return it substitutes the buffer-size-limit
error document; both are exercised end to end through `_run_app`. -/
theorem c9_run_app_zero_and_negative (buf output : String) (n bs : Int)
    (hn : n < 0)
    (hover : (if 0 < bs then bs.toNat else kDefaultBufferSize) - 1 < output.length) :
    processResult 0 buf = "\x7b\x7d" ∧
    ("\x7b\x7d" : String) ≠ "" ∧
    processResult n buf = "\x7b\"error\": \"buffer size limit\"\x7d" ∧
    _run_app "" bs = "\x7b\x7d" ∧
    _run_app output bs = "\x7b\"error\": \"buffer size limit\"\x7d" := by
  refine ⟨by simp [processResult], by decide, ?_, ?_, ?_⟩
  · have h1 : ¬ (0 : Int) < n := by omega
    have h2 : ¬ n = 0 := by omega
    simp [processResult, h1, h2]
  · simp [_run_app, kcl_run, processResult]
  · have h1 : ¬ output.length ≤
        (if 0 < bs then bs.toNat else kDefaultBufferSize) - 1 := by omega
    simp only [_run_app, kcl_run, h1, if_false, processResult]
    norm_num

/-- Witness for C9 at a concrete negative return value and an output longer
than the configured buffer. -/
theorem c9_witness :
    (-1 : Int) < 0 ∧
    (if (0 : Int) < 2 then (2 : Int).toNat else kDefaultBufferSize) - 1 <
      ("abcd" : String).length ∧
    (processResult 0 "zz" = "\x7b\x7d" ∧
     ("\x7b\x7d" : String) ≠ "" ∧
     processResult (-1) "zz" = "\x7b\"error\": \"buffer size limit\"\x7d" ∧
     _run_app "" 2 = "\x7b\x7d" ∧
     _run_app "abcd" 2 = "\x7b\"error\": \"buffer size limit\"\x7d") :=
  ⟨by decide, by decide, c9_run_app_zero_and_negative "zz" "abcd" (-1) 2 (by decide) (by decide)⟩

/-- C10: constructing an app context succeeds only from an empty global
slot and registers exactly that instance; destruction clears the slot; the
invoke proxy returns the empty string without dispatching while no instance
is registered, and dispatches to the registered instance's
`_call_py_method` while one is. -/
theorem c10_single_registration_proxy (g g2 : PluginGlobals) (selfId ptr : Nat)
    (callPy : Nat → String → String → String → String) (m a k : String)
    (h : appContextCtor g selfId ptr = some g2) :
    g.g_self = Option.none ∧
    g2.g_self = some selfId ∧
    (appContextDtor g2).g_self = Option.none ∧
    _invoke_json_proxy (appContextDtor g2) callPy m a k = "" ∧
    _invoke_json_proxy g2 callPy m a k = callPy selfId m a k := by
  unfold appContextCtor at h
  by_cases hg : g.g_self = Option.none
  · rw [if_pos hg] at h
    injection h with h
    subst h
    exact ⟨hg, rfl, rfl, rfl, rfl⟩
  · rw [if_neg hg] at h
    exact absurd h (by simp)

/-- Witness for C10 at a concrete registration. -/
theorem c10_witness :
    appContextCtor ⟨Option.none, 0⟩ 5 7 = some ⟨some 5, 7⟩ ∧
    ((⟨Option.none, 0⟩ : PluginGlobals).g_self = Option.none ∧
     (⟨some 5, 7⟩ : PluginGlobals).g_self = some 5 ∧
     (appContextDtor ⟨some 5, 7⟩).g_self = Option.none ∧
     _invoke_json_proxy (appContextDtor ⟨some 5, 7⟩) demoCallPy "m" "a" "k" = "" ∧
     _invoke_json_proxy ⟨some 5, 7⟩ demoCallPy "m" "a" "k" = demoCallPy 5 "m" "a" "k") :=
  ⟨rfl, c10_single_registration_proxy ⟨Option.none, 0⟩ ⟨some 5, 7⟩ 5 7 demoCallPy
    "m" "a" "k" rfl⟩

/-- C1: over the ABI result channel, a negative return value from the run
function signals that the buffer was too small for the output; a
non-negative return value is the number of bytes written, the buffer then
holding the output; and retrying the same computation with a buffer larger
than the output is recoverable — the retry returns the full result (the
output is a pure function of the computation, so the retry is idempotent),
including end to end through `_run_app`. -/
theorem c1_result_channel_retry (output : String) (cap : Nat) (bs2 : Int)
    (hfail : (kcl_run output cap).1 < 0)
    (hbig : (output.length : Int) < bs2)
    (hne : 0 < output.length) :
    cap < output.length ∧
    0 ≤ (kcl_run output (bs2.toNat - 1)).1 ∧
    (kcl_run output (bs2.toNat - 1)).1 = (output.length : Int) ∧
    (kcl_run output (bs2.toNat - 1)).2 = output ∧
    _run_app output bs2 = output := by
  have hcap : ¬ output.length ≤ cap := by
    intro hle
    rw [kcl_run, if_pos hle] at hfail
    omega
  have hcap2 : output.length ≤ bs2.toNat - 1 := by omega
  have hpos : (0 : Int) < bs2 := by omega
  refine ⟨by omega, ?_, ?_, ?_, ?_⟩
  · rw [kcl_run, if_pos hcap2]
    omega
  · rw [kcl_run, if_pos hcap2]
  · rw [kcl_run, if_pos hcap2]
  · simp only [_run_app, hpos, if_pos, kcl_run, hcap2, if_true, processResult]
    rw [if_pos (by exact_mod_cast hne)]

/-- Witness for C1: a 3-byte output fails in a 2-byte buffer and is
recovered by retrying with a 6-byte buffer. -/
theorem c1_witness :
    (kcl_run "abc" 2).1 < 0 ∧
    (("abc" : String).length : Int) < 6 ∧
    0 < ("abc" : String).length ∧
    (2 < ("abc" : String).length ∧
     0 ≤ (kcl_run "abc" ((6 : Int).toNat - 1)).1 ∧
     (kcl_run "abc" ((6 : Int).toNat - 1)).1 = (("abc" : String).length : Int) ∧
     (kcl_run "abc" ((6 : Int).toNat - 1)).2 = "abc" ∧
     _run_app "abc" 6 = "abc") :=
  ⟨by decide, by decide, by decide,
   c1_result_channel_retry "abc" 2 6 (by decide) (by decide) (by decide)⟩

/-- Clamping the list length itself as a slice bound is the identity. -/
theorem pyClamp_self (n : Nat) : pyClamp n (n : Int) = n := by
  simp only [pyClamp]
  split_ifs <;> omega

/-- A bound at or beyond the length clamps to the length. -/
theorem pyClamp_big (n : Nat) (i : Int) (h : (n : Int) ≤ i) : pyClamp n i = n := by
  simp only [pyClamp]
  split_ifs <;> omega

/-- A bound below the negative length clamps to zero. -/
theorem pyClamp_small (n : Nat) (i : Int) (h : i < -(n : Int)) : pyClamp n i = 0 := by
  simp only [pyClamp]
  split_ifs <;> omega

/-- The zero bound clamps to zero. -/
theorem pyClamp_zero (n : Nat) : pyClamp n 0 = 0 := by
  simp only [pyClamp]
  split_ifs <;> omega

/-- C7: an index out of range (after negative-index normalization) makes
direct positional get raise IndexError, while the same out-of-range bound
used as a slice start or stop clamps silently to the valid range and
returns a list without error. -/
theorem c7_get_errors_slice_clamps (l : List KclValue) (i : Int)
    (h : i < -(l.length : Int) ∨ (l.length : Int) ≤ i) :
    kcl_list_get l i = Except.error KclRtError.indexError ∧
    kcl_value_slice l (some i) Option.none Option.none =
      Except.ok (if (l.length : Int) ≤ i then [] else l) ∧
    kcl_value_slice l Option.none (some i) Option.none =
      Except.ok (if (l.length : Int) ≤ i then l else []) := by
  refine ⟨?_, ?_, ?_⟩
  · have key : ¬ (0 ≤ (if i < 0 then i + (l.length : Int) else i) ∧
        (if i < 0 then i + (l.length : Int) else i) < (l.length : Int)) := by
      by_cases hi : i < 0
      · simp only [if_pos hi]
        omega
      · simp only [if_neg hi]
        omega
    simp [kcl_list_get, key]
  · by_cases hcase : (l.length : Int) ≤ i
    · rw [if_pos hcase]
      simp only [kcl_value_slice, Option.getD_none, Option.getD_some]
      rw [if_neg (by omega), if_pos (by omega)]
      rw [pyClamp_big l.length i hcase, pyClamp_self]
      simp [List.drop_length, stepSel_one]
    · have hsmall : i < -(l.length : Int) := by
        rcases h with h1 | h1
        · exact h1
        · exact absurd h1 hcase
      rw [if_neg hcase]
      simp only [kcl_value_slice, Option.getD_none, Option.getD_some]
      rw [if_neg (by omega), if_pos (by omega)]
      rw [pyClamp_small l.length i hsmall, pyClamp_self]
      simp [List.take_length, stepSel_one]
  · by_cases hcase : (l.length : Int) ≤ i
    · rw [if_pos hcase]
      simp only [kcl_value_slice, Option.getD_none, Option.getD_some]
      rw [if_neg (by omega), if_pos (by omega)]
      rw [pyClamp_big l.length i hcase, pyClamp_zero]
      simp [List.take_length, stepSel_one]
    · have hsmall : i < -(l.length : Int) := by
        rcases h with h1 | h1
        · exact h1
        · exact absurd h1 hcase
      rw [if_neg hcase]
      simp only [kcl_value_slice, Option.getD_none, Option.getD_some]
      rw [if_neg (by omega), if_pos (by omega)]
      rw [pyClamp_small l.length i hsmall, pyClamp_zero]
      simp [stepSel_one]

/-- Witness for C7 at a concrete list and the out-of-range index 5. -/
theorem c7_witness :
    ((5 : Int) < -(demoList.length : Int) ∨ (demoList.length : Int) ≤ (5 : Int)) ∧
    (kcl_list_get demoList 5 = Except.error KclRtError.indexError ∧
     kcl_value_slice demoList (some 5) Option.none Option.none =
       Except.ok (if (demoList.length : Int) ≤ (5 : Int) then [] else demoList) ∧
     kcl_value_slice demoList Option.none (some 5) Option.none =
       Except.ok (if (demoList.length : Int) ≤ (5 : Int) then demoList else [])) :=
  ⟨by decide, c7_get_errors_slice_clamps demoList 5 (by decide)⟩

/-- Looking up the key just set finds the new binding. -/
theorem alookup_aset_self {α : Type} (m : List ((String × Nat) × α)) (x : String)
    (lv : Nat) (a : α) : alookup (aset m x lv a) x lv = some a := by
  simp [alookup, aset]

/-- Setting one key leaves lookups of a different key unchanged. -/
theorem alookup_aset_ne {α : Type} (m : List ((String × Nat) × α)) (x x2 : String)
    (lv lv2 : Nat) (a : α) (h : ¬ ((x, lv) = (x2, lv2))) :
    alookup (aset m x lv a) x2 lv2 = alookup m x2 lv2 := by
  simp only [alookup, aset]
  rw [if_neg h]

/-- Recording an evaluation of one pair leaves the count of a different
pair unchanged. -/
theorem acount_bump_ne (m : List ((String × Nat) × Nat)) (x x2 : String)
    (lv lv2 : Nat) (h : ¬ ((x, lv) = (x2, lv2))) :
    acount (bumpEval m x lv) x2 lv2 = acount m x2 lv2 := by
  simp only [acount, bumpEval]
  rw [alookup_aset_ne _ _ _ _ _ _ h]

/-- Recording an evaluation of a pair increments exactly its count. -/
theorem acount_bump_self (m : List ((String × Nat) × Nat)) (x : String)
    (lv : Nat) : acount (bumpEval m x lv) x lv = acount m x lv + 1 := by
  simp [acount, bumpEval, alookup_aset_self]

/-- A successful resolution leaves the (attribute, level) pair RESOLVED in
the backtrack cache of the final session (spec §4.4 "on success, cache
RESOLVED(value)"). -/
theorem cache_after_ok (fuel : Nat) (sch : SchemaDef) (s : KclSession)
    (x : String) (lv : Nat) (v : KclValue) (s2 : KclSession)
    (h : resolveAttr fuel sch s x lv = (Except.ok v, s2)) :
    alookup s2.cache x lv = some (KclCacheState.resolved v) := by
  cases fuel with
  | zero => simp [resolveAttr] at h
  | succ f =>
    rw [resolveAttr] at h
    split at h
    · rename_i v1 heq
      simp only [Prod.mk.injEq, Except.ok.injEq] at h
      obtain ⟨hv, hs⟩ := h
      subst hv
      subst hs
      exact heq
    · simp at h
    · simp at h
    · split at h
      · simp at h
      · rename_i v1 heq
        simp only [Prod.mk.injEq, Except.ok.injEq] at h
        obtain ⟨hv, hs⟩ := h
        subst hv
        subst hs
        exact alookup_aset_self _ _ _ _
      · rename_i y heq
        split at h
        · rename_i v1 s3 hr
          simp only [Prod.mk.injEq, Except.ok.injEq] at h
          obtain ⟨hv, hs⟩ := h
          subst hv
          subst hs
          exact alookup_aset_self _ _ _ _
        · simp at h


/-- While an (attribute, level) pair has any entry in the backtrack cache —
in particular while it is marked IN_PROGRESS — resolving any attribute
neither removes that entry nor evaluates that pair's defining expression
again: its evaluation count is untouched. -/
theorem resolve_preserves_marked (x : String) (lv : Nat) :
    ∀ (fuel : Nat) (sch : SchemaDef) (s : KclSession) (y : String) (m : Nat),
      (alookup s.cache x lv).isSome = true →
      (alookup (resolveAttr fuel sch s y m).2.cache x lv).isSome = true ∧
      acount (resolveAttr fuel sch s y m).2.evals x lv = acount s.evals x lv := by
  intro fuel
  induction fuel with
  | zero =>
    intro sch s y m hs
    exact ⟨hs, rfl⟩
  | succ f ih =>
    intro sch s y m hs
    rcases hc : alookup s.cache y m with _ | st
    · have hne : ¬ ((y, m) = (x, lv)) := by
        intro he
        injection he with h1 hm2
        subst h1
        subst hm2
        rw [hc] at hs
        simp at hs
      rcases he : alookup sch y m with _ | e
      · simp only [resolveAttr, hc, he]
        exact ⟨hs, trivial⟩
      · cases e with
        | lit v =>
          simp only [resolveAttr, hc, he]
          refine ⟨?_, ?_⟩
          · rw [alookup_aset_ne _ _ _ _ _ _ hne, alookup_aset_ne _ _ _ _ _ _ hne]
            exact hs
          · exact acount_bump_ne _ _ _ _ _ hne
        | selfRef z =>
          have hs1 : (alookup
              (KclSession.mk (aset s.cache y m KclCacheState.inProgress)
                (bumpEval s.evals y m)).cache x lv).isSome = true := by
            rw [alookup_aset_ne _ _ _ _ _ _ hne]
            exact hs
          obtain ⟨ih1, ih2⟩ := ih sch
            ⟨aset s.cache y m KclCacheState.inProgress, bumpEval s.evals y m⟩
            z m hs1
          rcases hr : resolveAttr f sch
              ⟨aset s.cache y m KclCacheState.inProgress, bumpEval s.evals y m⟩
              z m with ⟨res, s3⟩
          have ih1b : (alookup s3.cache x lv).isSome = true := by
            rw [hr] at ih1
            exact ih1
          have ih2b : acount s3.evals x lv =
              acount (bumpEval s.evals y m) x lv := by
            rw [hr] at ih2
            exact ih2
          have hcount : acount s3.evals x lv = acount s.evals x lv := by
            rw [ih2b]
            exact acount_bump_ne _ _ _ _ _ hne
          cases res with
          | ok v =>
            simp only [resolveAttr, hc, he, hr]
            refine ⟨?_, hcount⟩
            rw [alookup_aset_ne _ _ _ _ _ _ hne]
            exact ih1b
          | error e =>
            simp only [resolveAttr, hc, he, hr]
            refine ⟨?_, hcount⟩
            rw [alookup_aset_ne _ _ _ _ _ _ hne]
            exact ih1b
    · cases st with
      | inProgress =>
        simp only [resolveAttr, hc]
        exact ⟨hs, trivial⟩
      | resolved v =>
        simp only [resolveAttr, hc]
        exact ⟨hs, trivial⟩
      | errored =>
        simp only [resolveAttr, hc]
        exact ⟨hs, trivial⟩

/-- C2: when resolving an (attribute, level) pair in a fresh session
succeeds, resolving the same pair a second time within the same session
returns the identical cached value with the session unchanged (memoization
— never recompute), and the pair's defining expression was evaluated
exactly once in the session. -/
theorem c2_resolution_memoized (sch : SchemaDef) (x : String) (lv : Nat)
    (v : KclValue) (s2 : KclSession) (fuel fuel2 : Nat)
    (h : resolveAttr fuel sch KclSession.empty x lv = (Except.ok v, s2))
    (hf : 1 ≤ fuel2) :
    resolveAttr fuel2 sch s2 x lv = (Except.ok v, s2) ∧
    acount s2.evals x lv = 1 := by
  constructor
  · have hc := cache_after_ok fuel sch KclSession.empty x lv v s2 h
    obtain ⟨f2, rfl⟩ : ∃ k, fuel2 = Nat.succ k := ⟨fuel2 - 1, by omega⟩
    simp [resolveAttr, hc]
  · cases fuel with
    | zero => simp [resolveAttr] at h
    | succ f =>
      rw [resolveAttr] at h
      split at h
      · rename_i v1 heq
        simp [KclSession.empty, alookup] at heq
      · rename_i heq
        simp at h
      · rename_i heq
        simp at h
      · split at h
        · simp at h
        · rename_i v1 heq
          simp only [Prod.mk.injEq, Except.ok.injEq] at h
          obtain ⟨hv, hs⟩ := h
          subst hs
          rw [acount_bump_self]
          rfl
        · rename_i y heq
          split at h
          · rename_i v1 s3 hr
            simp only [Prod.mk.injEq, Except.ok.injEq] at h
            obtain ⟨hv, hs⟩ := h
            subst hs
            have hs1 : (alookup
                (KclSession.mk
                  (aset (KclSession.empty).cache x lv KclCacheState.inProgress)
                  (bumpEval (KclSession.empty).evals x lv)).cache x lv).isSome =
                true := by
              rw [alookup_aset_self]
              rfl
            obtain ⟨ih1, ih2⟩ := resolve_preserves_marked x lv f sch
              ⟨aset (KclSession.empty).cache x lv KclCacheState.inProgress,
               bumpEval (KclSession.empty).evals x lv⟩
              y lv hs1
            have step1 : acount s3.evals x lv =
                acount (bumpEval (KclSession.empty).evals x lv) x lv := by
              rw [hr] at ih2
              exact ih2
            rw [step1, acount_bump_self]
            rfl
          · simp at h

/-- Witness for C2: resolving the literal attribute `a` of `demoSchema`
from a fresh session, then resolving it again. -/
theorem c2_witness :
    resolveAttr 1 demoSchema KclSession.empty "a" 0 =
      (Except.ok (KclValue.vint 7), demoSession) ∧
    (1 : Nat) ≤ 1 ∧
    (resolveAttr 1 demoSchema demoSession "a" 0 =
      (Except.ok (KclValue.vint 7), demoSession) ∧
     acount demoSession.evals "a" 0 = 1) :=
  ⟨rfl, by decide,
   c2_resolution_memoized demoSchema "a" 0 (KclValue.vint 7) demoSession 1 1 rfl
     (by decide)⟩

/-- C3: an attribute whose defining expression references `self` at the
same attribute with no base case resolves to CyclicAttributeReferenceError
— the nested resolution meets the IN_PROGRESS marker for the same
(attribute, level) pair and stops instead of recursing indefinitely
(resolution is a total function, so it terminates on every input). -/
theorem c3_direct_cycle_detected (sch : SchemaDef) (s : KclSession) (x : String)
    (lv : Nat) (fuel : Nat)
    (hdef : alookup sch x lv = some (AttrExpr.selfRef x))
    (hun : alookup s.cache x lv = Option.none) :
    (resolveAttr (fuel + 2) sch s x lv).1 =
      Except.error KclRtError.cyclicAttributeReference := by
  have h2 : fuel + 2 = Nat.succ (Nat.succ fuel) := rfl
  rw [h2]
  simp only [resolveAttr, hun, hdef, alookup_aset_self]

/-- Witness for C3: the one-attribute schema where `x` is defined as
`self.x`, resolved from a fresh session. -/
theorem c3_witness :
    alookup cyclicSchema "x" 0 = some (AttrExpr.selfRef "x") ∧
    alookup (KclSession.empty).cache "x" 0 = Option.none ∧
    (resolveAttr 2 cyclicSchema KclSession.empty "x" 0).1 =
      Except.error KclRtError.cyclicAttributeReference :=
  ⟨rfl, rfl, c3_direct_cycle_detected cyclicSchema KclSession.empty "x" 0 0 rfl rfl⟩

/-- Indexing an extended store below the old length reads the old store. -/
theorem getq_append_left {α : Type} (l l2 : List α) (i : Nat) (h : i < l.length) :
    (l ++ l2)[i]? = l[i]? := by
  rw [List.getElem?_append, if_pos h]

/-- A cell obtained from a store closed below `n` references only addresses
below `n`. -/
theorem nodeBelowB_of_closed (n : Nat) (st : KStore) (i : Nat) (nd : KNode)
    (hcl : closedToB n st = true) (hi : st[i]? = some nd) :
    nodeBelowB n nd = true := by
  have hm : nd ∈ st := List.getElem?_mem hi
  rw [closedToB, List.all_eq_true] at hcl
  exact hcl nd hm

/-- The children of a composite node bounded below `n` are below `n`. -/
theorem childBelow (n : Nat) (d : Bool) (cs : List (String × Nat))
    (h : nodeBelowB n (KNode.comp d cs) = true) : ∀ c ∈ cs, c.2 < n := by
  intro c hc
  rw [nodeBelowB, List.all_eq_true] at h
  simpa using h c hc

/-- A below-bound on node references is monotone in the bound. -/
theorem nodeBelowB_mono (n m : Nat) (nd : KNode) (h : n ≤ m)
    (hnd : nodeBelowB n nd = true) : nodeBelowB m nd = true := by
  cases nd with
  | scalar v => rfl
  | comp d cs =>
    rw [nodeBelowB, List.all_eq_true] at *
    intro c hc
    have h2 := hnd c hc
    simp only [decide_eq_true_eq] at *
    omega

/-- An at-or-above bound on node references is antitone in the bound. -/
theorem nodeFromB_mono (m m2 : Nat) (nd : KNode) (h : m ≤ m2)
    (hnd : nodeFromB m2 nd = true) : nodeFromB m nd = true := by
  cases nd with
  | scalar v => rfl
  | comp d cs =>
    rw [nodeFromB, List.all_eq_true] at *
    intro c hc
    have h2 := hnd c hc
    simp only [decide_eq_true_eq] at *
    omega

/-- Closedness of a store is monotone in the bound. -/
theorem closedToB_mono (n m : Nat) (st : KStore) (h : n ≤ m)
    (hcl : closedToB n st = true) : closedToB m st = true := by
  rw [closedToB, List.all_eq_true] at *
  intro nd hnd
  exact nodeBelowB_mono n m nd h (hcl nd hnd)

/-- Appending a cell whose references respect the bound preserves
closedness. -/
theorem closedToB_append (n : Nat) (st : KStore) (nd : KNode)
    (hcl : closedToB n st = true) (hnd : nodeBelowB n nd = true) :
    closedToB n (st ++ [nd]) = true := by
  rw [closedToB, List.all_append]
  rw [closedToB] at hcl
  simp [hcl, hnd]

/-- The region from the store's own length on is empty, hence
self-contained. -/
theorem sepFromB_refl (st : KStore) : sepFromB st.length st = true := by
  rw [sepFromB, List.drop_length]
  rfl

/-- Appending a cell whose references stay at or above `m` preserves
self-containment of the region from `m` on. -/
theorem sepFromB_append (m : Nat) (st : KStore) (nd : KNode)
    (hm : m ≤ st.length) (hsep : sepFromB m st = true)
    (hnd : nodeFromB m nd = true) : sepFromB m (st ++ [nd]) = true := by
  rw [sepFromB, List.drop_append_of_le_length hm, List.all_append]
  rw [sepFromB] at hsep
  simp [hsep, hnd]

/-- Growing a store whose new region is self-contained from the old length
preserves self-containment from any earlier bound. -/
theorem sepFromB_extend (m : Nat) (st : KStore) (ext2 : KStore)
    (hm : m ≤ st.length) (hsep1 : sepFromB m st = true)
    (hsep2 : sepFromB st.length (st ++ ext2) = true) :
    sepFromB m (st ++ ext2) = true := by
  rw [sepFromB, List.drop_append_of_le_length hm, List.all_append]
  rw [sepFromB] at hsep1
  rw [sepFromB, List.drop_left] at hsep2
  rw [List.all_eq_true] at hsep2
  have hext : ext2.all (nodeFromB m) = true := by
    rw [List.all_eq_true]
    intro nd hnd
    exact nodeFromB_mono m st.length nd hm (hsep2 nd hnd)
  simp [hsep1, hext]

/-- Reading with no fuel yields nothing. -/
theorem readVal_zero (st : KStore) (a : Nat) : readVal st 0 a = Option.none := by
  rw [readVal]

/-- Unfolding equation of `readVal` at positive fuel. -/
theorem readVal_succ (st : KStore) (fuel a : Nat) :
    readVal st (Nat.succ fuel) a =
      match st[a]? with
      | Option.none => Option.none
      | some (KNode.scalar v) => some v.toValue
      | some (KNode.comp isDict cs) =>
        match readChildren st fuel cs with
        | Option.none => Option.none
        | some entries =>
          some (if isDict then KclValue.vdict entries
                else KclValue.vlist (entries.map Prod.snd)) := by
  rw [readVal]

/-- Reading an empty child list yields the empty entry list. -/
theorem readChildren_nil (st : KStore) (fuel : Nat) :
    readChildren st fuel [] = some [] := by
  rw [readChildren]

/-- Unfolding equation of `readChildren` on a cons. -/
theorem readChildren_cons (st : KStore) (fuel : Nat) (k : String) (c : Nat)
    (rest : List (String × Nat)) :
    readChildren st fuel ((k, c) :: rest) =
      match readVal st fuel c with
      | Option.none => Option.none
      | some v =>
        match readChildren st fuel rest with
        | Option.none => Option.none
        | some vs => some ((k, v) :: vs) := by
  rw [readChildren]

/-- Copying with no fuel yields nothing. -/
theorem copy_zero (st : KStore) (a : Nat) :
    kcl_value_deep_copy st 0 a = Option.none := by
  rw [kcl_value_deep_copy]

/-- Unfolding equation of `kcl_value_deep_copy` at positive fuel. -/
theorem copy_succ (st : KStore) (fuel a : Nat) :
    kcl_value_deep_copy st (Nat.succ fuel) a =
      match st[a]? with
      | Option.none => Option.none
      | some (KNode.scalar v) => some (st ++ [KNode.scalar v], st.length)
      | some (KNode.comp isDict cs) =>
        match copyChildren st fuel cs with
        | Option.none => Option.none
        | some (st1, cs1) => some (st1 ++ [KNode.comp isDict cs1], st1.length) := by
  rw [kcl_value_deep_copy]

/-- Copying an empty child list leaves the store unchanged. -/
theorem copyChildren_nil (st : KStore) (fuel : Nat) :
    copyChildren st fuel [] = some (st, []) := by
  rw [copyChildren]

/-- Unfolding equation of `copyChildren` on a cons. -/
theorem copyChildren_cons (st : KStore) (fuel : Nat) (k : String) (c : Nat)
    (rest : List (String × Nat)) :
    copyChildren st fuel ((k, c) :: rest) =
      match kcl_value_deep_copy st fuel c with
      | Option.none => Option.none
      | some (st1, c1) =>
        match copyChildren st1 fuel rest with
        | Option.none => Option.none
        | some (st2, rest1) => some (st2, (k, c1) :: rest1) := by
  rw [copyChildren]

/-- Reading a missing cell yields nothing. -/
theorem readVal_succ_none (st : KStore) (fuel a : Nat) (h : st[a]? = Option.none) :
    readVal st (Nat.succ fuel) a = Option.none := by
  rw [readVal_succ, h]

/-- Reading a scalar cell yields its tagged value. -/
theorem readVal_succ_scalar (st : KStore) (fuel a : Nat) (v : ScalarV)
    (h : st[a]? = some (KNode.scalar v)) :
    readVal st (Nat.succ fuel) a = some v.toValue := by
  rw [readVal_succ, h]

/-- Reading a composite cell reads its children. -/
theorem readVal_succ_comp (st : KStore) (fuel a : Nat) (d : Bool)
    (cs : List (String × Nat)) (h : st[a]? = some (KNode.comp d cs)) :
    readVal st (Nat.succ fuel) a =
      match readChildren st fuel cs with
      | Option.none => Option.none
      | some entries =>
        some (if d then KclValue.vdict entries
              else KclValue.vlist (entries.map Prod.snd)) := by
  rw [readVal_succ, h]

/-- Copying a scalar cell appends one fresh scalar cell. -/
theorem copy_succ_scalar (st : KStore) (fuel a : Nat) (v : ScalarV)
    (h : st[a]? = some (KNode.scalar v)) :
    kcl_value_deep_copy st (Nat.succ fuel) a =
      some (st ++ [KNode.scalar v], st.length) := by
  rw [copy_succ, h]

/-- Copying a composite cell copies its children, then appends one fresh
composite cell referencing the copies. -/
theorem copy_succ_comp (st : KStore) (fuel a : Nat) (d : Bool)
    (cs : List (String × Nat)) (h : st[a]? = some (KNode.comp d cs)) :
    kcl_value_deep_copy st (Nat.succ fuel) a =
      match copyChildren st fuel cs with
      | Option.none => Option.none
      | some (st1, cs1) => some (st1 ++ [KNode.comp d cs1], st1.length) := by
  rw [copy_succ, h]

/-- Readbacks agree between two stores that agree cell-for-cell below a
bound, for any root and any child list staying below that bound. -/
theorem read_agree (n : Nat) (st1 st2 : KStore)
    (hag : ∀ i, i < n → st1[i]? = st2[i]?)
    (hcl : closedToB n st1 = true) :
    ∀ fuel : Nat,
      (∀ a, a < n → readVal st1 fuel a = readVal st2 fuel a) ∧
      (∀ cs : List (String × Nat), (∀ c ∈ cs, c.2 < n) →
        readChildren st1 fuel cs = readChildren st2 fuel cs) := by
  intro fuel
  induction fuel with
  | zero =>
    constructor
    · intro a ha
      rw [readVal_zero, readVal_zero]
    · intro cs hcs
      induction cs with
      | nil => rw [readChildren_nil, readChildren_nil]
      | cons hd tl ihtl =>
        obtain ⟨k, c⟩ := hd
        rw [readChildren_cons, readChildren_cons, readVal_zero, readVal_zero]
  | succ f ihf =>
    have hV : ∀ a, a < n →
        readVal st1 (Nat.succ f) a = readVal st2 (Nat.succ f) a := by
      intro a ha
      have hag2 := hag a ha
      rcases hnode : st1[a]? with _ | nd
      · rw [readVal_succ_none st1 f a hnode,
          readVal_succ_none st2 f a (by rw [← hag2]; exact hnode)]
      · cases nd with
        | scalar v =>
          rw [readVal_succ_scalar st1 f a v hnode,
            readVal_succ_scalar st2 f a v (by rw [← hag2]; exact hnode)]
        | comp d cs =>
          have hkids : ∀ c ∈ cs, c.2 < n :=
            childBelow n d cs (nodeBelowB_of_closed n st1 a _ hcl hnode)
          rw [readVal_succ_comp st1 f a d cs hnode,
            readVal_succ_comp st2 f a d cs (by rw [← hag2]; exact hnode),
            ihf.2 cs hkids]
    refine ⟨hV, ?_⟩
    intro cs hcs
    induction cs with
    | nil => rw [readChildren_nil, readChildren_nil]
    | cons hd tl ihtl =>
      obtain ⟨k, c⟩ := hd
      rw [readChildren_cons, readChildren_cons,
        hV c (hcs (k, c) (List.mem_cons_self _ _)),
        ihtl (fun c2 hc2 => hcs c2 (List.mem_cons_of_mem _ hc2))]

/-- Main deep-copy specification: a successful copy only appends cells
(the original region is untouched), the grown store stays closed, the
newly written region is self-contained (the copy references no original
cell), the copy's root is fresh, and the copy reads back exactly as the
original did — child lists copied cell by cell satisfy the same bounds. -/
theorem copy_spec : ∀ fuel : Nat,
    (∀ st a st2 r, closedToB st.length st = true → a < st.length →
      kcl_value_deep_copy st fuel a = some (st2, r) →
      (∃ ext, st2 = st ++ ext) ∧
      closedToB st2.length st2 = true ∧
      sepFromB st.length st2 = true ∧
      st.length ≤ r ∧ r < st2.length ∧
      (∀ f, readVal st2 f r = readVal st f a)) ∧
    (∀ cs : List (String × Nat), ∀ st st2 cs2,
      closedToB st.length st = true →
      (∀ c ∈ cs, c.2 < st.length) →
      copyChildren st fuel cs = some (st2, cs2) →
      (∃ ext, st2 = st ++ ext) ∧
      closedToB st2.length st2 = true ∧
      sepFromB st.length st2 = true ∧
      (∀ c ∈ cs2, st.length ≤ c.2 ∧ c.2 < st2.length) ∧
      (∀ f, readChildren st2 f cs2 = readChildren st f cs)) := by
  intro fuel
  induction fuel with
  | zero =>
    constructor
    · intro st a st2 r hcl ha hcopy
      rw [copy_zero] at hcopy
      exact absurd hcopy (by simp)
    · intro cs st st2 cs2 hcl hkids hcopy
      cases cs with
      | nil =>
        rw [copyChildren_nil] at hcopy
        simp only [Option.some.injEq, Prod.mk.injEq] at hcopy
        obtain ⟨h1, h2⟩ := hcopy
        subst h1
        subst h2
        exact ⟨⟨[], (List.append_nil st).symm⟩, hcl, sepFromB_refl st,
          fun c hc => absurd hc (List.not_mem_nil c), fun f2 => rfl⟩
      | cons hd rest =>
        obtain ⟨k, c⟩ := hd
        rw [copyChildren_cons, copy_zero] at hcopy
        simp at hcopy
  | succ f ih =>
    obtain ⟨ihN, ihC⟩ := ih
    have hN : ∀ st a st2 r, closedToB st.length st = true → a < st.length →
        kcl_value_deep_copy st (Nat.succ f) a = some (st2, r) →
        (∃ ext, st2 = st ++ ext) ∧
        closedToB st2.length st2 = true ∧
        sepFromB st.length st2 = true ∧
        st.length ≤ r ∧ r < st2.length ∧
        (∀ f2, readVal st2 f2 r = readVal st f2 a) := by
      intro st a st2 r hcl ha hcopy
      rcases hnode : st[a]? with _ | nd
      · rw [copy_succ, hnode] at hcopy
        simp at hcopy
      · cases nd with
        | scalar v =>
          rw [copy_succ_scalar st f a v hnode] at hcopy
          simp only [Option.some.injEq, Prod.mk.injEq] at hcopy
          obtain ⟨h1, h2⟩ := hcopy
          subst h1
          subst h2
          refine ⟨⟨[KNode.scalar v], rfl⟩, ?_, ?_, Nat.le_refl _, by simp, ?_⟩
          · have hlen : (st ++ [KNode.scalar v]).length = st.length + 1 := by simp
            rw [hlen]
            exact closedToB_append _ _ _
              (closedToB_mono _ _ _ (Nat.le_succ _) hcl) rfl
          · exact sepFromB_append _ _ _ (Nat.le_refl _) (sepFromB_refl st) rfl
          · intro f2
            cases f2 with
            | zero => rw [readVal_zero, readVal_zero]
            | succ f3 =>
              rw [readVal_succ_scalar _ f3 _ v (List.getElem?_concat_length st _),
                readVal_succ_scalar _ f3 _ v hnode]
        | comp d cs =>
          rw [copy_succ_comp st f a d cs hnode] at hcopy
          rcases hcc : copyChildren st f cs with _ | p
          · rw [hcc] at hcopy
            simp at hcopy
          · obtain ⟨st1, cs1⟩ := p
            rw [hcc] at hcopy
            simp only [Option.some.injEq, Prod.mk.injEq] at hcopy
            obtain ⟨h1, h2⟩ := hcopy
            subst h1
            subst h2
            have hkids : ∀ c ∈ cs, c.2 < st.length :=
              childBelow _ d cs (nodeBelowB_of_closed _ st a _ hcl hnode)
            obtain ⟨⟨ext1, hext1⟩, hcl1, hsep1, hmem1, hread1⟩ :=
              ihC cs st st1 cs1 hcl hkids hcc
            have hlen1 : st.length ≤ st1.length := by
              rw [hext1]
              simp
            refine ⟨⟨ext1 ++ [KNode.comp d cs1],
              by rw [hext1, List.append_assoc]⟩, ?_, ?_, by omega, by simp, ?_⟩
            · have hlen2 : (st1 ++ [KNode.comp d cs1]).length = st1.length + 1 := by
                simp
              rw [hlen2]
              refine closedToB_append _ _ _
                (closedToB_mono _ _ _ (Nat.le_succ _) hcl1) ?_
              rw [nodeBelowB, List.all_eq_true]
              intro c hc
              have hb := (hmem1 c hc).2
              simp only [decide_eq_true_eq]
              omega
            · refine sepFromB_append _ _ _ hlen1 hsep1 ?_
              rw [nodeFromB, List.all_eq_true]
              intro c hc
              have hb := (hmem1 c hc).1
              simp only [decide_eq_true_eq]
              omega
            · intro f2
              cases f2 with
              | zero => rw [readVal_zero, readVal_zero]
              | succ f3 =>
                rw [readVal_succ_comp _ f3 _ d cs1
                    (List.getElem?_concat_length st1 _),
                  readVal_succ_comp st f3 a d cs hnode]
                have hagr : ∀ i, i < st1.length →
                    st1[i]? = (st1 ++ [KNode.comp d cs1])[i]? := by
                  intro i hi
                  rw [getq_append_left st1 _ i hi]
                have hrc : readChildren (st1 ++ [KNode.comp d cs1]) f3 cs1 =
                    readChildren st1 f3 cs1 :=
                  ((read_agree st1.length st1 _ hagr hcl1 f3).2 cs1
                    (fun c hc => (hmem1 c hc).2)).symm
                rw [hrc, hread1 f3]
    refine ⟨hN, ?_⟩
    intro cs
    induction cs with
    | nil =>
      intro st st2 cs2 hcl hkids hcopy
      rw [copyChildren_nil] at hcopy
      simp only [Option.some.injEq, Prod.mk.injEq] at hcopy
      obtain ⟨h1, h2⟩ := hcopy
      subst h1
      subst h2
      exact ⟨⟨[], (List.append_nil st).symm⟩, hcl, sepFromB_refl st,
        fun c hc => absurd hc (List.not_mem_nil c), fun f2 => rfl⟩
    | cons hd tl ihtl =>
      obtain ⟨k, c⟩ := hd
      intro st st2 cs2 hcl hkids hcopy
      rw [copyChildren_cons] at hcopy
      rcases hcn : kcl_value_deep_copy st (Nat.succ f) c with _ | p
      · rw [hcn] at hcopy
        simp at hcopy
      · obtain ⟨st1, c1⟩ := p
        rw [hcn] at hcopy
        simp only [Option.some.injEq] at hcopy
        rcases hcc2 : copyChildren st1 (Nat.succ f) tl with _ | q
        · rw [hcc2] at hcopy
          simp at hcopy
        · obtain ⟨st3, rest1⟩ := q
          rw [hcc2] at hcopy
          simp only [Option.some.injEq, Prod.mk.injEq] at hcopy
          obtain ⟨h1, h2⟩ := hcopy
          subst h1
          subst h2
          have hc : c < st.length := by
            simpa using hkids (k, c) (List.mem_cons_self _ _)
          obtain ⟨⟨extA, hA⟩, hclA, hsepA, hc1lo, hc1hi, hreadA⟩ :=
            hN st c st1 c1 hcl hc hcn
          have hlenA : st.length ≤ st1.length := by
            rw [hA]
            simp
          have hkidsTl : ∀ c2 ∈ tl, c2.2 < st1.length := by
            intro c2 hc2
            have hb := hkids c2 (List.mem_cons_of_mem _ hc2)
            omega
          obtain ⟨⟨extB, hB⟩, hclB, hsepB, hmemB, hreadB⟩ :=
            ihtl st1 st3 rest1 hclA hkidsTl hcc2
          have hlenB : st1.length ≤ st3.length := by
            rw [hB]
            simp
          refine ⟨⟨extA ++ extB, by rw [hB, hA, List.append_assoc]⟩, hclB, ?_, ?_, ?_⟩
          · have hsepB2 : sepFromB st1.length (st1 ++ extB) = true := by
              rw [← hB]
              exact hsepB
            rw [hB]
            exact sepFromB_extend st.length st1 extB hlenA hsepA hsepB2
          · intro c2 hc2
            rcases List.mem_cons.mp hc2 with hce | hce
            · subst hce
              refine ⟨hc1lo, ?_⟩
              show c1 < st3.length
              omega
            · obtain ⟨hb1, hb2⟩ := hmemB c2 hce
              exact ⟨by omega, hb2⟩
          · intro f2
            rw [readChildren_cons, readChildren_cons]
            have hagrA : ∀ i, i < st.length → st[i]? = st1[i]? := by
              intro i hi
              rw [hA, getq_append_left st extA i hi]
            have hagrB : ∀ i, i < st1.length → st1[i]? = st3[i]? := by
              intro i hi
              rw [hB, getq_append_left st1 extB i hi]
            have h1 : readVal st3 f2 c1 = readVal st f2 c := by
              have e1 : readVal st1 f2 c1 = readVal st3 f2 c1 :=
                (read_agree st1.length st1 st3 hagrB hclA f2).1 c1 hc1hi
              rw [← e1, hreadA f2]
            have h2 : readChildren st3 f2 rest1 = readChildren st f2 tl := by
              have e2 : readChildren st1 f2 tl = readChildren st f2 tl :=
                ((read_agree st.length st st1 hagrA hcl f2).2 tl
                  (fun c2 hc2 => hkids c2 (List.mem_cons_of_mem _ hc2))).symm
              rw [hreadB f2, e2]
            rw [h1, h2]

/-- C8: a successful deep copy reads back structurally equal to the
original; the copy's root cell is freshly allocated and the copied region
references no original cell (`sepFromB`), so every mutation applied to a
cell of the copy — any cell in the fresh region — leaves the original value
unchanged: no aliasing between copy and original is observable. -/
theorem c8_deep_copy_independent (st : KStore) (a fuel b f : Nat) (nd : KNode)
    (st2 : KStore) (r : Nat)
    (hclosed : closedToB st.length st = true) (ha : a < st.length)
    (hcopy : kcl_value_deep_copy st fuel a = some (st2, r))
    (hb : st.length ≤ b) :
    readVal st2 f r = readVal st f a ∧
    st.length ≤ r ∧
    sepFromB st.length st2 = true ∧
    readVal (kstore_set st2 b nd) f a = readVal st f a := by
  obtain ⟨⟨ext, hext⟩, hcl2, hsep, hr1, hr2, hread⟩ :=
    (copy_spec fuel).1 st a st2 r hclosed ha hcopy
  refine ⟨hread f, hr1, hsep, ?_⟩
  have hag : ∀ i, i < st.length → st[i]? = (kstore_set st2 b nd)[i]? := by
    intro i hi
    have h1 : st2[i]? = st[i]? := by
      rw [hext]
      exact getq_append_left st ext i hi
    have h2 : (st2.set b nd)[i]? = st2[i]? := List.getElem?_set_ne (by omega)
    rw [kstore_set, h2, h1]
  exact ((read_agree st.length st (kstore_set st2 b nd) hag hclosed f).1 a ha).symm

/-- Witness for C8: deep-copying the one-element list at cell 1 of
`demoStore`, then mutating fresh cell 2 of the copy. -/
theorem c8_witness :
    closedToB demoStore.length demoStore = true ∧
    1 < demoStore.length ∧
    kcl_value_deep_copy demoStore 2 1 = some (copyStore, 3) ∧
    demoStore.length ≤ 2 ∧
    (readVal copyStore 3 3 = readVal demoStore 3 1 ∧
     demoStore.length ≤ 3 ∧
     sepFromB demoStore.length copyStore = true ∧
     readVal (kstore_set copyStore 2 (KNode.scalar (ScalarV.sint 99))) 3 1 =
       readVal demoStore 3 1) :=
  ⟨by decide, by decide,
   by simp [kcl_value_deep_copy, copyChildren, demoStore, copyStore],
   by decide,
   c8_deep_copy_independent demoStore 1 2 2 3 (KNode.scalar (ScalarV.sint 99))
     copyStore 3 (by decide) (by decide)
     (by simp [kcl_value_deep_copy, copyChildren, demoStore, copyStore])
     (by decide)⟩
